import Mathlib

/-!
Verification development for the go-offline-packager repository.

Go strings are modelled as lists of unicode scalar values (`List Char`),
matching Go's `for _, v := range s` rune iteration used by the code under
verification.  File names and paths use the target platform of the tool
(a '/'-separated filesystem), on which `filepath.ToSlash` and
`filepath.FromSlash` are the identity and `filepath.Separator` is '/'.
-/

namespace Gop

/-- A Go string, viewed as its sequence of runes. -/
abbrev Str := List Char

/-- Rune list of a literal. -/
def strL (s : String) : Str := s.data

/-! ## Coordinate codec (pack.go `moduleNameToCaseInsensitive`, publish.go `strToModuleName`)

The Go code calls `unicode.IsUpper`, `unicode.ToLower` and `unicode.ToUpper`.
Valid Go module paths are ASCII, and on the ASCII range those functions
coincide with the ASCII case maps modelled here. -/

/-- Model of `unicode.IsUpper` on the ASCII range. -/
def isUpperGo (c : Char) : Bool := 65 ≤ c.toNat && c.toNat ≤ 90

/-- Model of `unicode.ToLower` on the ASCII range. -/
def toLowerGo (c : Char) : Char :=
  if 65 ≤ c.toNat && c.toNat ≤ 90 then Char.ofNat (c.toNat + 32) else c

/-- Model of `unicode.ToUpper` on the ASCII range. -/
def toUpperGo (c : Char) : Char :=
  if 97 ≤ c.toNat && c.toNat ≤ 122 then Char.ofNat (c.toNat - 32) else c

/-- pack.go lines 145-159: encode a module name into its case-insensitive
on-disk form; every upper-case rune becomes '!' followed by its lower-case
form.  `filepath.ToSlash` at the head of the Go function is the identity on
the modelled platform. -/
def moduleNameToCaseInsensitive : Str → Str
  | [] => []
  | c :: rest =>
    if isUpperGo c then '!' :: toLowerGo c :: moduleNameToCaseInsensitive rest
    else c :: moduleNameToCaseInsensitive rest

/-- The rune loop of publish.go `strToModuleName` (lines 303-323), carrying
the `nextToUpper` flag: a '!' sets the flag, and a rune seen with the flag
set is emitted upper-cased. -/
def strToModuleNameLoop : Bool → Str → Str
  | _, [] => []
  | true, c :: rest => toUpperGo c :: strToModuleNameLoop false rest
  | false, c :: rest =>
    if c = '!' then strToModuleNameLoop true rest
    else c :: strToModuleNameLoop false rest

/-- publish.go lines 303-323: decode a case-insensitive on-disk name back to
the module name.  `filepath.ToSlash` is the identity on the modelled
platform. -/
def strToModuleName (name : Str) : Str := strToModuleNameLoop false name

theorem charToNat_ofNat_of_small {n : Nat} (h : n < 55296) :
    (Char.ofNat n).toNat = n := by
  rw [Char.ofNat, dif_pos (Or.inl h)]
  rfl

theorem toUpperGo_toLowerGo (c : Char) (h : isUpperGo c = true) :
    toUpperGo (toLowerGo c) = c := by
  have hn : 65 ≤ c.toNat ∧ c.toNat ≤ 90 := by
    simpa [isUpperGo] using h
  have hv : c.toNat + 32 < 55296 := by omega
  have ht : (Char.ofNat (c.toNat + 32)).toNat = c.toNat + 32 :=
    charToNat_ofNat_of_small hv
  have hlow : toLowerGo c = Char.ofNat (c.toNat + 32) := by
    simp [toLowerGo, hn.1, hn.2]
  rw [hlow, toUpperGo, ht]
  have h97 : 97 ≤ c.toNat + 32 := by omega
  have h122 : c.toNat + 32 ≤ 122 := by omega
  simp [h97, h122]

/-- C1: decoding inverts encoding on every module path that contains no '!'
escape marker: `strToModuleName (moduleNameToCaseInsensitive p) = p`. -/
theorem codec_roundtrip (p : Str) (h : '!' ∉ p) :
    strToModuleName (moduleNameToCaseInsensitive p) = p := by
  unfold strToModuleName
  induction p with
  | nil => rfl
  | cons c rest ih =>
    have hc : c ≠ '!' := by
      intro hidden
      exact h (hidden ▸ List.mem_cons_self c rest)
    have hrest : '!' ∉ rest := fun hm => h (List.mem_cons_of_mem c hm)
    by_cases hu : isUpperGo c = true
    · have e0 : moduleNameToCaseInsensitive (c :: rest)
          = '!' :: toLowerGo c :: moduleNameToCaseInsensitive rest := by
        simp [moduleNameToCaseInsensitive, hu]
      rw [e0]
      have e1 : strToModuleNameLoop false ('!' :: toLowerGo c :: moduleNameToCaseInsensitive rest)
          = strToModuleNameLoop true (toLowerGo c :: moduleNameToCaseInsensitive rest) := by
        simp [strToModuleNameLoop]
      rw [e1]
      show toUpperGo (toLowerGo c) :: strToModuleNameLoop false (moduleNameToCaseInsensitive rest)
          = c :: rest
      rw [toUpperGo_toLowerGo c hu, ih hrest]
    · have e0 : moduleNameToCaseInsensitive (c :: rest)
          = c :: moduleNameToCaseInsensitive rest := by
        simp [moduleNameToCaseInsensitive, hu]
      rw [e0]
      have e1 : strToModuleNameLoop false (c :: moduleNameToCaseInsensitive rest)
          = c :: strToModuleNameLoop false (moduleNameToCaseInsensitive rest) := by
        simp [strToModuleNameLoop, hc]
      rw [e1, ih hrest]

/-- C1 witness: the round trip at the concrete path github.com/Azure/go-ansiterm. -/
theorem codec_roundtrip_witness :
    '!' ∉ strL "github.com/Azure/go-ansiterm" ∧
      strToModuleName (moduleNameToCaseInsensitive (strL "github.com/Azure/go-ansiterm")) =
        strL "github.com/Azure/go-ansiterm" :=
  ⟨by decide, codec_roundtrip (strL "github.com/Azure/go-ansiterm") (by decide)⟩

/-! ## Exclusion filter, module-name versionizing and the transitive closure
(packV2.go `isExcludedModule`, `versionizeModulName`, `addTransitiveDeps`,
`downloadModules`) -/

/-- Model of `strings.HasPrefix`. -/
def hasPrefixGo (s pre : Str) : Bool := pre.isPrefixOf s

/-- Model of `strings.Contains` specialised to a one-rune needle, as used with
"@" by the code. -/
def containsGo (s : Str) (c : Char) : Bool := s.contains c

/-- Model of Go `strings.Split` with a one-rune separator (the code only
splits on " " and "@"). -/
def splitGo (sep : Char) : Str → List Str
  | [] => [[]]
  | c :: rest =>
    match splitGo sep rest with
    | [] => [[]]
    | field :: fields =>
      if c = sep then [] :: field :: fields else (c :: field) :: fields

/-- packV2.go lines 233-237 (`InitCommand`): the default excluded prefixes. -/
def defaultExcludeMods : List Str := [strL "go@", strL "toolchain@"]

/-- packV2.go lines 178-186: a module string is excluded when it starts with
one of the configured prefixes. -/
def isExcludedModule (excludeMods : List Str) (s : Str) : Bool :=
  excludeMods.any fun pre => hasPrefixGo s pre

/-- packV2.go lines 188-195: append "@latest" when no version is present. -/
def versionizeModulName (modName : Str) : Str :=
  if containsGo modName '@' then modName else modName ++ strL "@latest"

/-- The behaviour of the external `go` binary as seen by `downloadModules`:
whether `go mod download -json m` succeeds for a versionized coordinate, and
the lines printed by `go mod graph` run in that module's directory.  A failed
graph query (which the code logs and skips) is modelled as producing no
lines. -/
structure GoModOracle where
  ok : Str → Bool
  graph : Str → List Str

/-- packV2.go lines 160-176 (`addTransitiveDeps`): scan the graph output of a
resolved module line by line; every line that splits on " " into exactly two
fields and whose second field is not excluded has that field inserted into
the pending `transitiveMod` set (a Go `map[string]struct{}`, modelled as a
`Finset`). -/
def addTransitiveDeps (excludeMods : List Str) (o : GoModOracle) (m : Str)
    (transitiveMod : Finset Str) : Finset Str :=
  (o.graph m).foldl
    (fun acc line =>
      match splitGo ' ' line with
      | [_, target] =>
        if !isExcludedModule excludeMods target then insert target acc else acc
      | _ => acc)
    transitiveMod

/-- One iteration of the seed loop of packV2.go `downloadModules` (lines
87-103): versionize the requested module, attempt the download, skip a
failure, and when `DoTransitive` is set feed the successfully resolved seed
to `addTransitiveDeps`.  The first component collects the successfully
resolved (versionized) seeds; the second is the pending `transitiveMod`
set. -/
def downloadModulesStep (excludeMods : List Str) (o : GoModOracle)
    (doTransitive : Bool) (acc : Finset Str × Finset Str) (m : Str) :
    Finset Str × Finset Str :=
  let mv := versionizeModulName m
  if o.ok mv then
    (insert mv acc.1,
      if doTransitive then addTransitiveDeps excludeMods o mv acc.2 else acc.2)
  else acc

/-- The seed loop of packV2.go `downloadModules` (lines 81-103), starting
from the empty sets established by `InitCommand`.  The later phase-2 worker
pool only downloads members of the pending set and never changes either
set. -/
def downloadModulesSets (excludeMods : List Str) (o : GoModOracle)
    (doTransitive : Bool) (modules : List Str) : Finset Str × Finset Str :=
  modules.foldl (downloadModulesStep excludeMods o doTransitive) (∅, ∅)

/-- The resolved closure of a transitive pack run: the successfully resolved
seeds together with the pending transitive set. -/
def resolvedClosure (excludeMods : List Str) (o : GoModOracle)
    (modules : List Str) : Finset Str :=
  (downloadModulesSets excludeMods o true modules).1 ∪
    (downloadModulesSets excludeMods o true modules).2

/-- Modelled from the spec: the non-excluded target of one graph line, when
the line has exactly two fields. -/
def lineTarget (excludeMods : List Str) (line : Str) : Option Str :=
  match splitGo ' ' line with
  | [_, target] =>
    if isExcludedModule excludeMods target then none else some target
  | _ => none

/-- Modelled from the spec: the set of seeds that resolved successfully. -/
def okSeedSet (o : GoModOracle) (modules : List Str) : Finset Str :=
  ((modules.map versionizeModulName).filter o.ok).toFinset

/-- Modelled from the spec: every edge target appearing as the second field
of a two-field graph line of a successfully resolved seed, minus excluded
targets. -/
def edgeTargetSet (excludeMods : List Str) (o : GoModOracle)
    (modules : List Str) : Finset Str :=
  (((modules.map versionizeModulName).filter o.ok).flatMap
    (fun m => (o.graph m).filterMap (lineTarget excludeMods))).toFinset

theorem addTransitiveDeps_eq (excludeMods : List Str) (o : GoModOracle)
    (m : Str) (acc : Finset Str) :
    addTransitiveDeps excludeMods o m acc =
      acc ∪ ((o.graph m).filterMap (lineTarget excludeMods)).toFinset := by
  unfold addTransitiveDeps
  generalize o.graph m = lines
  induction lines generalizing acc with
  | nil => simp
  | cons line rest ih =>
    rw [List.foldl_cons, ih]
    rcases hsp : splitGo ' ' line with _ | ⟨a, _ | ⟨b, _ | ⟨c, l⟩⟩⟩
    · simp [lineTarget, hsp]
    · simp [lineTarget, hsp]
    · by_cases hex : isExcludedModule excludeMods b = true
      · simp [lineTarget, hsp, hex]
      · simp [lineTarget, hsp, hex, Finset.insert_union, Finset.union_insert]
    · simp [lineTarget, hsp]

theorem downloadModulesSets_eq (excludeMods : List Str) (o : GoModOracle)
    (modules : List Str) :
    downloadModulesSets excludeMods o true modules =
      (okSeedSet o modules, edgeTargetSet excludeMods o modules) := by
  unfold downloadModulesSets okSeedSet edgeTargetSet
  suffices h : ∀ s t : Finset Str,
      modules.foldl (downloadModulesStep excludeMods o true) (s, t) =
      (s ∪ ((modules.map versionizeModulName).filter o.ok).toFinset,
        t ∪ (((modules.map versionizeModulName).filter o.ok).flatMap
          (fun m => (o.graph m).filterMap (lineTarget excludeMods))).toFinset) by
    rw [h ∅ ∅]
    simp
  induction modules with
  | nil => intro s t; simp
  | cons m rest ih =>
    intro s t
    rw [List.foldl_cons]
    by_cases hok : o.ok (versionizeModulName m) = true
    · have hstep : downloadModulesStep excludeMods o true (s, t) m =
          (insert (versionizeModulName m) s,
            addTransitiveDeps excludeMods o (versionizeModulName m) t) := by
        simp [downloadModulesStep, hok]
      rw [hstep, ih, addTransitiveDeps_eq]
      simp only [List.map_cons, List.filter_cons, hok, ite_true, List.flatMap_cons,
        List.toFinset_cons, List.toFinset_append, Prod.mk.injEq]
      refine ⟨?_, ?_⟩
      · rw [Finset.insert_union, Finset.union_insert]
      · rw [Finset.union_assoc]
    · have hstep : downloadModulesStep excludeMods o true (s, t) m = (s, t) := by
        simp [downloadModulesStep, hok]
      rw [hstep, ih]
      simp [List.filter_cons, hok]

/-- C2: for every seed list and synthetic graph output, the resolved closure
equals the set of successfully resolved (versionized) seeds unioned with
every edge target appearing as the second field of a two-field graph line of
a successfully resolved seed, minus excluded targets; the pending set is a
`Finset`, so duplicates collapse. -/
theorem resolvedClosure_eq (excludeMods : List Str) (o : GoModOracle)
    (modules : List Str) :
    resolvedClosure excludeMods o modules =
      okSeedSet o modules ∪ edgeTargetSet excludeMods o modules := by
  unfold resolvedClosure
  rw [downloadModulesSets_eq]

theorem isPrefixOfEq : ∀ l₁ l₂ : Str, l₁.isPrefixOf l₂ = true ↔ l₁ <+: l₂
  | [], l₂ => by simp [List.isPrefixOf]
  | a :: as, [] => by simp [List.isPrefixOf]
  | a :: as, b :: bs => by
    show (a == b && as.isPrefixOf bs) = true ↔ _
    rw [Bool.and_eq_true, beq_iff_eq, isPrefixOfEq as bs, List.cons_prefix_cons]

theorem downloadModulesSets_snd_of_not_transitive (excludeMods : List Str)
    (o : GoModOracle) (modules : List Str) :
    (downloadModulesSets excludeMods o false modules).2 = ∅ := by
  unfold downloadModulesSets
  suffices h : ∀ (s t : Finset Str),
      (modules.foldl (downloadModulesStep excludeMods o false) (s, t)).2 = t from
    h ∅ ∅
  induction modules with
  | nil => intro s t; rfl
  | cons m rest ih =>
    intro s t
    rw [List.foldl_cons]
    by_cases hok : o.ok (versionizeModulName m) = true
    · have hstep : downloadModulesStep excludeMods o false (s, t) m =
          (insert (versionizeModulName m) s, t) := by
        simp [downloadModulesStep, hok]
      rw [hstep, ih]
    · have hstep : downloadModulesStep excludeMods o false (s, t) m = (s, t) := by
        simp [downloadModulesStep, hok]
      rw [hstep, ih]

theorem lineTarget_not_excluded (excludeMods : List Str) (line s : Str)
    (h : lineTarget excludeMods line = some s) :
    isExcludedModule excludeMods s = false := by
  unfold lineTarget at h
  rcases hsp : splitGo ' ' line with _ | ⟨a, _ | ⟨b, _ | ⟨c, l⟩⟩⟩ <;> rw [hsp] at h
  · exact absurd h (by simp)
  · exact absurd h (by simp)
  · by_cases hex : isExcludedModule excludeMods b = true
    · simp [hex] at h
    · simp only [hex, ite_false, if_neg, Bool.false_eq_true, Option.some.injEq] at h
      subst h
      simpa using hex
  · exact absurd h (by simp)

/-- C3: `isExcludedModule` returns true exactly when the string starts with a
configured excluded prefix (with the defaults "go@" and "toolchain@"
installed by `InitCommand`), and no excluded string is ever a member of the
pending transitive-module set produced by the seed loop. -/
theorem isExcludedModule_spec :
    (∀ (excl : List Str) (s : Str),
      isExcludedModule excl s = true ↔ ∃ pre ∈ excl, pre <+: s) ∧
    (∀ s : Str,
      isExcludedModule defaultExcludeMods s = true ↔
        strL "go@" <+: s ∨ strL "toolchain@" <+: s) ∧
    (∀ (excl : List Str) (o : GoModOracle) (doTransitive : Bool)
      (modules : List Str) (s : Str),
      s ∈ (downloadModulesSets excl o doTransitive modules).2 →
        isExcludedModule excl s = false) := by
  have hiff : ∀ (excl : List Str) (s : Str),
      isExcludedModule excl s = true ↔ ∃ pre ∈ excl, pre <+: s := by
    intro excl s
    unfold isExcludedModule hasPrefixGo
    rw [List.any_eq_true]
    constructor
    · rintro ⟨pre, hmem, hp⟩
      exact ⟨pre, hmem, (isPrefixOfEq pre s).mp hp⟩
    · rintro ⟨pre, hmem, hp⟩
      exact ⟨pre, hmem, (isPrefixOfEq pre s).mpr hp⟩
  refine ⟨hiff, ?_, ?_⟩
  · intro s
    rw [hiff]
    constructor
    · rintro ⟨pre, hmem, hp⟩
      simp only [defaultExcludeMods, List.mem_cons, List.not_mem_nil, or_false] at hmem
      rcases hmem with h1 | h2
      · exact Or.inl (h1 ▸ hp)
      · exact Or.inr (h2 ▸ hp)
    · rintro (hp | hp)
      · exact ⟨strL "go@", by simp [defaultExcludeMods], hp⟩
      · exact ⟨strL "toolchain@", by simp [defaultExcludeMods], hp⟩
  · intro excl o doTransitive modules s hmem
    cases doTransitive with
    | false =>
      rw [downloadModulesSets_snd_of_not_transitive] at hmem
      exact absurd hmem (Finset.not_mem_empty s)
    | true =>
      rw [downloadModulesSets_eq] at hmem
      simp only [edgeTargetSet, List.mem_toFinset, List.mem_flatMap,
        List.mem_filterMap] at hmem
      obtain ⟨m, _, line, _, hline⟩ := hmem
      exact lineTarget_not_excluded excl line s hline

/-- C3 witness: with the default configuration, "go@1.21" is excluded,
"example.com/a@v1" is not, and membership of a concrete transitive set
implies non-exclusion at a concrete run. -/
theorem isExcludedModule_spec_witness :
    (isExcludedModule defaultExcludeMods (strL "go@1.21") = true ↔
      strL "go@" <+: strL "go@1.21" ∨ strL "toolchain@" <+: strL "go@1.21") ∧
    isExcludedModule defaultExcludeMods (strL "go@1.21") = true ∧
    isExcludedModule defaultExcludeMods (strL "example.com/a@v1") = false :=
  ⟨isExcludedModule_spec.2.1 (strL "go@1.21"), by decide, by decide⟩

/-- C10: `versionizeModulName` leaves a name containing '@' unchanged,
appends "@latest" otherwise, and its result always contains '@'. -/
theorem versionizeModulName_spec (s : Str) :
    ('@' ∈ s → versionizeModulName s = s) ∧
    ('@' ∉ s → versionizeModulName s = s ++ strL "@latest") ∧
    '@' ∈ versionizeModulName s := by
  have hc : containsGo s '@' = true ↔ '@' ∈ s := by
    simp [containsGo, List.contains, List.elem_iff]
  refine ⟨?_, ?_, ?_⟩
  · intro hmem
    simp [versionizeModulName, hc.mpr hmem]
  · intro hmem
    have hcf : containsGo s '@' = false := by
      cases h : containsGo s '@' with
      | false => rfl
      | true => exact absurd (hc.mp h) hmem
    simp [versionizeModulName, hcf]
  · by_cases hmem : '@' ∈ s
    · simp [versionizeModulName, hc.mpr hmem, hmem]
    · have hcf : containsGo s '@' = false := by
        cases h : containsGo s '@' with
        | false => rfl
        | true => exact absurd (hc.mp h) hmem
      simp only [versionizeModulName, hcf, Bool.false_eq_true, ite_false, if_neg]
      exact List.mem_append_right s (by decide)

/-- C10 witness: both branches at concrete module names. -/
theorem versionizeModulName_spec_witness :
    versionizeModulName (strL "github.com/a/b@v1.4.0") = strL "github.com/a/b@v1.4.0" ∧
    versionizeModulName (strL "github.com/a/b") = strL "github.com/a/b" ++ strL "@latest" ∧
    '@' ∈ versionizeModulName (strL "github.com/a/b") :=
  ⟨(versionizeModulName_spec (strL "github.com/a/b@v1.4.0")).1 (by decide),
    (versionizeModulName_spec (strL "github.com/a/b")).2.1 (by decide),
    (versionizeModulName_spec (strL "github.com/a/b")).2.2⟩

/-! ## Folder republisher (publish.go `FolderPublishCmd.handleModule`,
`FolderPublishCmd.handleCopyFile`)

A directory is modelled as an association list from file name to file
content, in the (deterministic) order the operating system reports the
entries; `Readdirnames` yields the key list. -/

/-- A directory: file names with their byte contents, in readdir order. -/
abbrev Dir := List (Str × Str)

/-- The content of the named file, if present. -/
def lookupD (d : Dir) (n : Str) : Option Str := (d.find? fun p => p.1 == n).map (·.2)

/-- The file names of a directory, in readdir order (`Readdirnames`). -/
def namesOf (d : Dir) : List Str := d.map (·.1)

/-- publish.go lines 262-301 (`handleCopyFile`), restricted to one
destination directory: if the destination file already exists the copy is
skipped (logged in verbose mode only); otherwise the source bytes are copied
to a newly created file (`O_CREATE|O_EXCL`). -/
def handleCopyFile (d : Dir) (n c : Str) : Dir :=
  match lookupD d n with
  | some _ => d
  | none => d ++ [(n, c)]

/-- Model of `strings.HasSuffix`. -/
def hasSuffixGo (s suf : Str) : Bool := suf.isSuffixOf s

/-- Model of `strings.TrimSuffix`. -/
def trimSuffixGo (s suf : Str) : Str :=
  if hasSuffixGo s suf then s.take (s.length - suf.length) else s

/-- Model of `strings.Join`. -/
def joinGo (sep : Str) : List Str → Str
  | [] => []
  | [s] => s
  | s :: rest => s ++ sep ++ joinGo sep rest

/-- The housekeeping file names skipped by the copy loop of
`handleModule`. -/
def housekeeping (n : Str) : Bool :=
  n == strL "list" || n == strL "list.lock" || n == strL "lock"

/-- publish.go lines 248-252: the version strings obtained by stripping the
".mod" suffix from every ".mod"-suffixed name of the destination
directory. -/
def versionsOfDir (names : List Str) : List Str :=
  (names.filter fun n => hasSuffixGo n (strL ".mod")).map fun n => trimSuffixGo n (strL ".mod")

/-- publish.go lines 254-255: the bytes written to the `list` file. -/
def listFileContent (names : List Str) : Str :=
  joinGo (strL "\n") (versionsOfDir names) ++ strL "\n"

/-- `ioutil.WriteFile`: truncate the file if it exists, create it
otherwise. -/
def writeFileD (d : Dir) (n c : Str) : Dir :=
  if (lookupD d n).isSome then d.map fun p => if p.1 == n then (n, c) else p
  else d ++ [(n, c)]

/-- The copy loop of `handleModule` (publish.go lines 224-231): every source
file except the housekeeping files is copied with the `handleCopyFile`
rule. -/
def copyPhase (src : List (Str × Str)) (dst : Dir) : Dir :=
  src.foldl (fun d p => if housekeeping p.1 then d else handleCopyFile d p.1 p.2) dst

/-- publish.go lines 209-260 (`handleModule`) acting on one module-version
directory: copy the non-housekeeping source files, re-scan the destination
directory, and (re)write its `list` file from the ".mod" names found
there. -/
def handleModule (src : List (Str × Str)) (dst : Dir) : Dir :=
  let dst1 := copyPhase src dst
  writeFileD dst1 (strL "list") (listFileContent (namesOf dst1))

/-- Modelled from the spec: "one version per line, newline-terminated" -- the
concatenation of `v ++ "\n"` over the discovered versions. -/
def listFileContentSpec (names : List Str) : Str :=
  (versionsOfDir names).flatMap fun v => v ++ strL "\n"

theorem joinGo_newline_eq_flatMap :
    ∀ vs : List Str, vs ≠ [] →
      joinGo (strL "\n") vs ++ strL "\n" = vs.flatMap fun v => v ++ strL "\n"
  | [], h => absurd rfl h
  | [v], _ => by simp [joinGo]
  | v :: w :: rest, _ => by
    have ih := joinGo_newline_eq_flatMap (w :: rest) (by simp)
    show (v ++ strL "\n" ++ joinGo (strL "\n") (w :: rest)) ++ strL "\n" = _
    rw [List.flatMap_cons, List.append_assoc, List.append_assoc, ← ih,
      List.append_assoc]

theorem lookupD_append (d e : Dir) (n : Str) :
    lookupD (d ++ e) n = (lookupD d n).or (lookupD e n) := by
  unfold lookupD
  rw [List.find?_append]
  cases d.find? fun p => p.1 == n with
  | none => simp
  | some v => simp

theorem lookupD_mapUpd_self (d : Dir) (n c : Str) (h : (lookupD d n).isSome) :
    lookupD (d.map fun p => if p.1 == n then (n, c) else p) n = some c := by
  induction d with
  | nil => simp [lookupD] at h
  | cons p rest ih =>
    rw [List.map_cons]
    by_cases hp : (p.1 == n) = true
    · rw [if_pos hp]
      have hfind : List.find? (fun q => q.1 == n)
          ((n, c) :: rest.map fun q => if q.1 == n then (n, c) else q) = some (n, c) :=
        List.find?_cons_of_pos _ (by simp)
      unfold lookupD
      rw [hfind]
      rfl
    · rw [if_neg hp]
      have h' : (lookupD rest n).isSome := by
        have hfind : List.find? (fun q => q.1 == n) (p :: rest) =
            List.find? (fun q => q.1 == n) rest := List.find?_cons_of_neg _ hp
        unfold lookupD at h
        rw [hfind] at h
        exact h
      have hfind2 : List.find? (fun q => q.1 == n)
          (p :: rest.map fun q => if q.1 == n then (n, c) else q) =
          List.find? (fun q => q.1 == n)
            (rest.map fun q => if q.1 == n then (n, c) else q) :=
        List.find?_cons_of_neg _ hp
      unfold lookupD
      rw [hfind2]
      exact ih h'

theorem lookupD_mapUpd_of_ne (d : Dir) (n c m : Str) (hne : m ≠ n) :
    lookupD (d.map fun p => if p.1 == n then (n, c) else p) m = lookupD d m := by
  induction d with
  | nil => rfl
  | cons p rest ih =>
    rw [List.map_cons]
    by_cases hp : (p.1 == n) = true
    · rw [if_pos hp]
      have hpn : p.1 = n := by simpa using hp
      have hnm : ¬((n, c).1 == m) = true := by
        simp only [beq_iff_eq]
        exact fun he => hne he.symm
      have hpm : ¬(p.1 == m) = true := by
        rw [hpn]
        simpa using hnm
      have hf1 : List.find? (fun q => q.1 == m)
          ((n, c) :: rest.map fun q => if q.1 == n then (n, c) else q) =
          List.find? (fun q => q.1 == m)
            (rest.map fun q => if q.1 == n then (n, c) else q) :=
        List.find?_cons_of_neg _ hnm
      have hf2 : List.find? (fun q => q.1 == m) (p :: rest) =
          List.find? (fun q => q.1 == m) rest := List.find?_cons_of_neg _ hpm
      unfold lookupD
      rw [hf1, hf2]
      exact ih
    · rw [if_neg hp]
      by_cases hpm : (p.1 == m) = true
      · have hf1 : List.find? (fun q => q.1 == m)
            (p :: rest.map fun q => if q.1 == n then (n, c) else q) = some p :=
          List.find?_cons_of_pos _ hpm
        have hf2 : List.find? (fun q => q.1 == m) (p :: rest) = some p :=
          List.find?_cons_of_pos _ hpm
        unfold lookupD
        rw [hf1, hf2]
      · have hf1 : List.find? (fun q => q.1 == m)
            (p :: rest.map fun q => if q.1 == n then (n, c) else q) =
            List.find? (fun q => q.1 == m)
              (rest.map fun q => if q.1 == n then (n, c) else q) :=
          List.find?_cons_of_neg _ hpm
        have hf2 : List.find? (fun q => q.1 == m) (p :: rest) =
            List.find? (fun q => q.1 == m) rest := List.find?_cons_of_neg _ hpm
        unfold lookupD
        rw [hf1, hf2]
        exact ih

theorem lookupD_writeFileD_self (d : Dir) (n c : Str) :
    lookupD (writeFileD d n c) n = some c := by
  unfold writeFileD
  by_cases h : (lookupD d n).isSome
  · rw [if_pos h]
    exact lookupD_mapUpd_self d n c h
  · rw [if_neg h]
    have hnone : lookupD d n = none := by
      cases hl : lookupD d n with
      | none => rfl
      | some v => rw [hl] at h; simp at h
    rw [lookupD_append, hnone]
    simp [lookupD]

theorem handleCopyFile_of_isSome (d : Dir) (n c : Str) (h : (lookupD d n).isSome) :
    handleCopyFile d n c = d := by
  unfold handleCopyFile
  cases hl : lookupD d n with
  | some v => rfl
  | none => rw [hl] at h; simp at h

theorem handleCopyFile_of_none (d : Dir) (n c : Str) (h : lookupD d n = none) :
    handleCopyFile d n c = d ++ [(n, c)] := by
  unfold handleCopyFile
  rw [h]

theorem lookupD_single_self (n c : Str) : lookupD [(n, c)] n = some c := by
  have hf : List.find? (fun q => q.1 == n) [(n, c)] = some (n, c) :=
    List.find?_cons_of_pos _ (by simp)
  unfold lookupD
  rw [hf]
  rfl

theorem lookupD_handleCopyFile_of_isSome (d : Dir) (n c m : Str)
    (h : (lookupD d m).isSome) :
    lookupD (handleCopyFile d n c) m = lookupD d m := by
  cases hl : lookupD d n with
  | some v => rw [handleCopyFile_of_isSome d n c (by rw [hl]; rfl)]
  | none =>
    rw [handleCopyFile_of_none d n c hl, lookupD_append]
    cases hm : lookupD d m with
    | some v => rfl
    | none => rw [hm] at h; simp at h

theorem isSome_handleCopyFile_mono (d : Dir) (n c m : Str)
    (h : (lookupD d m).isSome) : (lookupD (handleCopyFile d n c) m).isSome := by
  rw [lookupD_handleCopyFile_of_isSome d n c m h]
  exact h

theorem lookupD_handleCopyFile_self (d : Dir) (n c : Str) :
    (lookupD (handleCopyFile d n c) n).isSome := by
  cases hl : lookupD d n with
  | some v => rw [handleCopyFile_of_isSome d n c (by rw [hl]; rfl), hl]; rfl
  | none =>
    rw [handleCopyFile_of_none d n c hl, lookupD_append, hl, lookupD_single_self]
    rfl

theorem copyPhase_cons (p : Str × Str) (rest : List (Str × Str)) (dst : Dir) :
    copyPhase (p :: rest) dst =
      copyPhase rest (if housekeeping p.1 then dst else handleCopyFile dst p.1 p.2) := by
  unfold copyPhase
  rw [List.foldl_cons]

theorem lookupD_copyPhase_of_isSome (src : List (Str × Str)) (dst : Dir) (m : Str)
    (h : (lookupD dst m).isSome) :
    lookupD (copyPhase src dst) m = lookupD dst m := by
  induction src generalizing dst with
  | nil => rfl
  | cons p rest ih =>
    rw [copyPhase_cons]
    by_cases hh : housekeeping p.1 = true
    · rw [if_pos hh]
      exact ih dst h
    · rw [if_neg hh]
      rw [ih _ (isSome_handleCopyFile_mono _ _ _ _ h)]
      exact lookupD_handleCopyFile_of_isSome _ _ _ _ h

theorem isSome_copyPhase_mono (src : List (Str × Str)) (dst : Dir) (m : Str)
    (h : (lookupD dst m).isSome) : (lookupD (copyPhase src dst) m).isSome := by
  rw [lookupD_copyPhase_of_isSome src dst m h]
  exact h

theorem copyPhase_present (src : List (Str × Str)) (dst : Dir) :
    ∀ p ∈ src, housekeeping p.1 = false →
      (lookupD (copyPhase src dst) p.1).isSome := by
  induction src generalizing dst with
  | nil => intro p hp _; exact absurd hp (List.not_mem_nil p)
  | cons q rest ih =>
    intro p hp hhk
    rw [copyPhase_cons]
    rcases List.mem_cons.mp hp with he | hm
    · subst he
      rw [if_neg (by rw [hhk]; exact Bool.false_ne_true)]
      exact isSome_copyPhase_mono rest _ _ (lookupD_handleCopyFile_self dst p.1 p.2)
    · by_cases hh : housekeeping q.1 = true
      · rw [if_pos hh]
        exact ih _ p hm hhk
      · rw [if_neg hh]
        exact ih _ p hm hhk

theorem copyPhase_fixpoint (src : List (Str × Str)) (d : Dir)
    (h : ∀ p ∈ src, housekeeping p.1 = false → (lookupD d p.1).isSome) :
    copyPhase src d = d := by
  induction src with
  | nil => rfl
  | cons q rest ih =>
    rw [copyPhase_cons]
    by_cases hh : housekeeping q.1 = true
    · rw [if_pos hh]
      exact ih fun p hp hhk => h p (List.mem_cons_of_mem q hp) hhk
    · rw [if_neg hh]
      have hq : (lookupD d q.1).isSome := by
        refine h q (List.mem_cons_self q rest) ?_
        cases hhq : housekeeping q.1 with
        | false => rfl
        | true => exact absurd hhq hh
      rw [handleCopyFile_of_isSome d q.1 q.2 hq]
      exact ih fun p hp hhk => h p (List.mem_cons_of_mem q hp) hhk

theorem namesOf_mapUpd (d : Dir) (n c : Str) :
    namesOf (d.map fun p => if p.1 == n then (n, c) else p) = namesOf d := by
  unfold namesOf
  rw [List.map_map]
  apply List.map_congr_left
  intro p _
  by_cases hp : (p.1 == n) = true
  · have hpn : p.1 = n := by simpa using hp
    simp [hp, hpn]
  · have hpn : ¬p.1 = n := by simpa using hp
    simp [hpn]

theorem namesOf_writeFileD (d : Dir) (n c : Str) :
    namesOf (writeFileD d n c) =
      if (lookupD d n).isSome then namesOf d else namesOf d ++ [n] := by
  unfold writeFileD
  by_cases h : (lookupD d n).isSome
  · rw [if_pos h, if_pos h]
    exact namesOf_mapUpd d n c
  · rw [if_neg h, if_neg h]
    unfold namesOf
    rw [List.map_append]
    rfl

theorem lookupD_writeFileD_of_ne (d : Dir) (n c m : Str) (hne : m ≠ n) :
    lookupD (writeFileD d n c) m = lookupD d m := by
  unfold writeFileD
  by_cases h : (lookupD d n).isSome
  · rw [if_pos h]
    exact lookupD_mapUpd_of_ne d n c m hne
  · rw [if_neg h]
    rw [lookupD_append]
    have hnm : ¬((n, c).1 == m) = true := by
      simp only [beq_iff_eq]
      exact fun he => hne he.symm
    have hsingle : lookupD [(n, c)] m = none := by
      have hf : List.find? (fun q => q.1 == m) [(n, c)] = List.find? (fun q => q.1 == m) [] :=
        List.find?_cons_of_neg _ hnm
      unfold lookupD
      rw [hf]
      rfl
    rw [hsingle]
    cases lookupD d m with
    | none => rfl
    | some v => rfl

theorem writeFileD_of_isSome (d : Dir) (n c : Str) (h : (lookupD d n).isSome) :
    writeFileD d n c = d.map fun p => if p.1 == n then (n, c) else p := by
  unfold writeFileD
  rw [if_pos h]

theorem writeFileD_of_not_isSome (d : Dir) (n c : Str) (h : ¬(lookupD d n).isSome) :
    writeFileD d n c = d ++ [(n, c)] := by
  unfold writeFileD
  rw [if_neg h]

theorem writeFileD_absorb (d : Dir) (n c c' : Str) :
    writeFileD (writeFileD d n c) n c' = writeFileD d n c' := by
  have h2 : (lookupD (writeFileD d n c) n).isSome := by
    rw [lookupD_writeFileD_self]
    rfl
  by_cases h : (lookupD d n).isSome
  · rw [writeFileD_of_isSome _ _ _ h2, writeFileD_of_isSome _ _ _ h,
      writeFileD_of_isSome _ _ _ h, List.map_map]
    apply List.map_congr_left
    intro p _
    by_cases hp : (p.1 == n) = true
    · have hpn : p.1 = n := by simpa using hp
      simp [hpn]
    · have hpn : ¬p.1 = n := by simpa using hp
      simp [hpn]
  · rw [writeFileD_of_isSome _ _ _ h2, writeFileD_of_not_isSome _ _ _ h,
      writeFileD_of_not_isSome _ _ _ h, List.map_append]
    have hfind : d.find? (fun q => q.1 == n) = none := by
      cases hf : d.find? fun q => q.1 == n with
      | none => rfl
      | some v =>
        exfalso
        apply h
        unfold lookupD
        rw [hf]
        rfl
    have hall := List.find?_eq_none.mp hfind
    have hd : (d.map fun p => if p.1 == n then (n, c') else p) = d.map id := by
      apply List.map_congr_left
      intro p hp
      have hnp : ¬p.1 = n := by simpa using hall p hp
      simp [hnp]
    have htail : (([(n, c)] : Dir).map fun p => if p.1 == n then (n, c') else p) =
        [(n, c')] := by
      simp
    rw [hd, htail, List.map_id]

theorem versionsOf_writeFileD_list (d : Dir) (c : Str) :
    versionsOfDir (namesOf (writeFileD d (strL "list") c)) =
      versionsOfDir (namesOf d) := by
  rw [namesOf_writeFileD]
  by_cases hL : (lookupD d (strL "list")).isSome
  · rw [if_pos hL]
  · rw [if_neg hL]
    unfold versionsOfDir
    rw [List.filter_append]
    have hone : (([strL "list"] : List Str).filter fun n =>
        hasSuffixGo n (strL ".mod")) = [] := by decide
    rw [hone, List.append_nil]

theorem handleModule_def (src : List (Str × Str)) (dst : Dir) :
    handleModule src dst =
      writeFileD (copyPhase src dst) (strL "list")
        (listFileContent (namesOf (copyPhase src dst))) := rfl

/-- C4 (amended): when at least one ".mod" descriptor is present in the
destination directory after the copy phase, the `list` file written by
`handleModule` holds exactly the version strings obtained by stripping the
".mod" suffix from every ".mod"-suffixed destination name, one per line in
discovery order, newline-terminated.  (With no descriptor at all the code
writes a single newline instead of empty content.) -/
theorem handleModule_list_content (src : List (Str × Str)) (dst : Dir)
    (h : versionsOfDir (namesOf (copyPhase src dst)) ≠ []) :
    lookupD (handleModule src dst) (strL "list") =
      some (listFileContentSpec (namesOf (copyPhase src dst))) := by
  rw [handleModule_def, lookupD_writeFileD_self]
  unfold listFileContent listFileContentSpec
  rw [joinGo_newline_eq_flatMap _ h]

/-- C4 counterexample: a module-version directory whose destination holds no
".mod" descriptor (here a lone ".info" file) gets a `list` file containing a
single newline, not the empty version enumeration the claim dictates. -/
theorem handleModule_list_content_cex :
    lookupD (handleModule [(strL "1.0.0.info", strL "i")] []) (strL "list") ≠
      some (listFileContentSpec (namesOf (copyPhase [(strL "1.0.0.info", strL "i")] []))) ∧
    lookupD (handleModule [(strL "1.0.0.info", strL "i")] []) (strL "list") =
      some (strL "\n") := by
  decide

/-- C4 witness: the claim's own example, descriptor files 1.0.0.mod and
1.2.0.mod, gives list content "1.0.0\n1.2.0\n". -/
theorem handleModule_list_content_witness :
    lookupD (handleModule [(strL "1.0.0.mod", strL "m1"), (strL "1.2.0.mod", strL "m2")] [])
        (strL "list") = some (strL "1.0.0\n1.2.0\n") := by
  rw [handleModule_list_content
    [(strL "1.0.0.mod", strL "m1"), (strL "1.2.0.mod", strL "m2")] [] (by decide)]
  decide

theorem handleModule_idem (src : List (Str × Str)) (dst : Dir) :
    handleModule src (handleModule src dst) = handleModule src dst := by
  rw [handleModule_def src dst, handleModule_def src _]
  have hpresent : ∀ p ∈ src, housekeeping p.1 = false →
      (lookupD (writeFileD (copyPhase src dst) (strL "list")
        (listFileContent (namesOf (copyPhase src dst)))) p.1).isSome := by
    intro p hp hhk
    by_cases hpl : p.1 = strL "list"
    · rw [hpl, lookupD_writeFileD_self]
      rfl
    · rw [lookupD_writeFileD_of_ne _ _ _ _ hpl]
      exact copyPhase_present src dst p hp hhk
  rw [copyPhase_fixpoint _ _ hpresent]
  have hcontent : listFileContent (namesOf (writeFileD (copyPhase src dst) (strL "list")
      (listFileContent (namesOf (copyPhase src dst))))) =
      listFileContent (namesOf (copyPhase src dst)) := by
    unfold listFileContent
    rw [versionsOf_writeFileD_list]
  rw [hcontent, writeFileD_absorb]

/-- C5 (amended): the folder republisher's copy rule never overwrites -- the
content of every pre-existing destination file other than the regenerated
per-module `list` index is unchanged by `handleModule`, and `handleCopyFile`
never changes any existing file; the `list` file is rewritten from the
destination's ".mod" names, which makes a second identical run leave every
output file byte-identical (idempotence). -/
theorem folderPublish_additive_spec :
    (∀ (src : List (Str × Str)) (dst : Dir) (n : Str), n ≠ strL "list" →
      (lookupD dst n).isSome → lookupD (handleModule src dst) n = lookupD dst n) ∧
    (∀ (dst : Dir) (n c m : Str),
      (lookupD dst m).isSome → lookupD (handleCopyFile dst n c) m = lookupD dst m) ∧
    (∀ (src : List (Str × Str)) (dst : Dir),
      handleModule src (handleModule src dst) = handleModule src dst) := by
  refine ⟨?_, ?_, handleModule_idem⟩
  · intro src dst n hn h
    rw [handleModule_def, lookupD_writeFileD_of_ne _ _ _ _ hn]
    exact lookupD_copyPhase_of_isSome src dst n h
  · intro dst n c m h
    exact lookupD_handleCopyFile_of_isSome dst n c m h

/-- C5 counterexample: a pre-existing `list` file in the destination is
rewritten by `handleModule`, so "never overwrites any existing destination
file" fails as stated. -/
theorem folderPublish_overwrites_list_cex :
    (lookupD [(strL "list", strL "stale")] (strL "list")).isSome = true ∧
    lookupD (handleModule [(strL "1.0.0.mod", strL "m")] [(strL "list", strL "stale")])
        (strL "list") ≠
      lookupD [(strL "list", strL "stale")] (strL "list") := by
  decide

/-- C5 witness: preservation of an existing non-index file, and idempotence,
at a concrete module directory. -/
theorem folderPublish_additive_spec_witness :
    lookupD (handleModule [(strL "1.0.0.mod", strL "m")] [(strL "1.0.0.info", strL "x")])
        (strL "1.0.0.info") =
      lookupD [(strL "1.0.0.info", strL "x")] (strL "1.0.0.info") ∧
    handleModule [(strL "1.0.0.mod", strL "m")]
        (handleModule [(strL "1.0.0.mod", strL "m")] []) =
      handleModule [(strL "1.0.0.mod", strL "m")] [] :=
  ⟨folderPublish_additive_spec.1 _ _ _ (by decide) (by decide),
    folderPublish_additive_spec.2.2 _ _⟩

/-! ## Archive builder (main.go `createZipArchive`, `addFileToArchive`,
`extractZipArchive`, `extractToFile`)

File system effects are represented by oracles recording which IO steps
succeed; archive entries and directory trees are (path, content) pairs. -/

/-- Model of `strings.TrimPrefix`. -/
def trimPrefixGo (s pre : Str) : Str :=
  if pre.isPrefixOf s then s.drop pre.length else s

/-- Model of `strings.TrimLeft(s, string(filepath.Separator))` on the
modelled platform: drop every leading '/'. -/
def trimLeftSepGo (s : Str) : Str := s.dropWhile fun c => c = '/'

/-- main.go lines 234-240: the archive entry name of a walked file -- its
path made relative to the packed directory (`filepath.ToSlash` is the
identity on the modelled platform). -/
def entryName (dir file : Str) : Str := trimLeftSepGo (trimPrefixGo file dir)

/-- The IO outcomes `createZipArchive` depends on: whether a file already
exists at the destination archive path (the `O_CREATE|O_EXCL` open fails
then) and whether an individual walked file can be opened, stat'ed and
copied. -/
structure PackEnv where
  dstExists : Bool
  addOk : Str → Bool

/-- main.go lines 222-251 (`addFileToArchive`): on success the file is added
under its `entryName`; a per-file IO failure returns an error to the walk
loop, which logs it and continues. -/
def addFileToArchive (env : PackEnv) (dir : Str) (f : Str × Str) :
    Option (Str × Str) :=
  if env.addOk f.1 then some (entryName dir f.1, f.2) else none

/-- main.go lines 188-220 (`createZipArchive`): fail when the destination
path already exists; otherwise walk the regular files in walk order,
appending every successfully added file to the archive and only logging
per-file failures -- the walk itself never returns an error for them. -/
def createZipArchive (env : PackEnv) (dir : Str) (files : List (Str × Str)) :
    Except Unit (List (Str × Str)) :=
  if env.dstExists then .error ()
  else
    .ok (files.foldl
      (fun acc f =>
        match addFileToArchive env dir f with
        | some e => acc ++ [e]
        | none => acc)
      [])

/-- main.go lines 167-186 (`extractToFile`): create the destination with
`O_CREATE|O_EXCL`; when it already exists the entry is skipped with a logged
warning and the existing file is left unchanged. -/
def extractToFile (fs : Dir) (e : Str × Str) : Dir := handleCopyFile fs e.1 e.2

/-- Whether the destination-directory preparation and `zip.OpenReader`
succeed for the archive being extracted. -/
structure ExtractEnv where
  zipOk : Bool

/-- main.go lines 139-165 (`extractZipArchive`): after the setup steps the
entries are written one by one with `extractToFile`; per-entry conditions
are logged, never returned, and the call ends with `return nil`. -/
def extractZipArchive (env : ExtractEnv) (entries : List (Str × Str)) (fs : Dir) :
    Except Unit Dir :=
  if env.zipOk then .ok (entries.foldl extractToFile fs) else .error ()

theorem createZipArchive_ok_eq (env : PackEnv) (dir : Str)
    (files : List (Str × Str)) (h : env.dstExists = false) :
    createZipArchive env dir files =
      .ok ((files.filter fun f => env.addOk f.1).map fun f => (entryName dir f.1, f.2)) := by
  unfold createZipArchive
  rw [if_neg (by rw [h]; exact Bool.false_ne_true)]
  congr 1
  suffices hgen : ∀ acc : List (Str × Str),
      files.foldl
        (fun acc f =>
          match addFileToArchive env dir f with
          | some e => acc ++ [e]
          | none => acc)
        acc =
      acc ++ ((files.filter fun f => env.addOk f.1).map fun f => (entryName dir f.1, f.2)) by
    rw [hgen []]
    rfl
  induction files with
  | nil => intro acc; simp
  | cons f rest ih =>
    intro acc
    rw [List.foldl_cons, List.filter_cons]
    by_cases hok : env.addOk f.1 = true
    · have hstep :
          (match addFileToArchive env dir f with
            | some e => acc ++ [e]
            | none => acc) = acc ++ [(entryName dir f.1, f.2)] := by
        unfold addFileToArchive
        rw [if_pos hok]
      rw [hstep, ih]
      simp [hok]
    · have hstep :
          (match addFileToArchive env dir f with
            | some e => acc ++ [e]
            | none => acc) = acc := by
        unfold addFileToArchive
        rw [if_neg hok]
      rw [hstep, ih]
      simp [hok]

/-- C7: `createZipArchive` returns an error and produces no archive exactly
when the destination already exists; with a writable destination the call
succeeds and the archive holds precisely the walked files whose individual
add succeeded -- per-file failures are dropped without failing the call. -/
theorem createZipArchive_error_spec :
    (∀ (env : PackEnv) (dir : Str) (files : List (Str × Str)),
      env.dstExists = true → createZipArchive env dir files = .error ()) ∧
    (∀ (env : PackEnv) (dir : Str) (files : List (Str × Str)),
      env.dstExists = false →
        createZipArchive env dir files =
          .ok ((files.filter fun f => env.addOk f.1).map
            fun f => (entryName dir f.1, f.2))) := by
  refine ⟨?_, createZipArchive_ok_eq⟩
  intro env dir files h
  unfold createZipArchive
  rw [if_pos h]

/-- C7 witness: an existing destination fails; a per-file failure only drops
that file while the call still succeeds. -/
theorem createZipArchive_error_spec_witness :
    createZipArchive ⟨true, fun _ => true⟩ (strL "/d") [(strL "/d/a", strL "x")] =
      .error () ∧
    createZipArchive ⟨false, fun n => !(n == strL "/d/bad")⟩ (strL "/d")
        [(strL "/d/a", strL "x"), (strL "/d/bad", strL "y")] =
      .ok [(strL "a", strL "x")] := by
  constructor
  · exact createZipArchive_error_spec.1 _ _ _ rfl
  · rw [createZipArchive_error_spec.2 _ _ _ rfl]
    exact congrArg Except.ok (by decide)

theorem lookupD_extractFold_of_isSome (entries : List (Str × Str)) (fs : Dir)
    (n : Str) (h : (lookupD fs n).isSome) :
    lookupD (entries.foldl extractToFile fs) n = lookupD fs n := by
  induction entries generalizing fs with
  | nil => rfl
  | cons e rest ih =>
    rw [List.foldl_cons]
    have h1 : (lookupD (extractToFile fs e) n).isSome :=
      isSome_handleCopyFile_mono fs e.1 e.2 n h
    rw [ih (extractToFile fs e) h1]
    exact lookupD_handleCopyFile_of_isSome fs e.1 e.2 n h

theorem extractFold_present (entries : List (Str × Str)) (fs : Dir) :
    ∀ e ∈ entries, (lookupD (entries.foldl extractToFile fs) e.1).isSome := by
  induction entries generalizing fs with
  | nil => intro e he; exact absurd he (List.not_mem_nil e)
  | cons q rest ih =>
    intro e he
    rw [List.foldl_cons]
    rcases List.mem_cons.mp he with h1 | h2
    · subst h1
      have h0 : (lookupD (extractToFile fs e) e.1).isSome :=
        lookupD_handleCopyFile_self fs e.1 e.2
      rw [lookupD_extractFold_of_isSome rest _ _ h0]
      exact h0
    · exact ih _ e h2

/-- C8: with a readable archive, `extractZipArchive` returns `nil` no matter
how many entry destinations already exist; every pre-existing file keeps its
content (those entries are skipped), and after the call every entry's
destination is populated. -/
theorem extractZipArchive_skip_spec (env : ExtractEnv)
    (entries : List (Str × Str)) (fs : Dir) (h : env.zipOk = true) :
    extractZipArchive env entries fs = .ok (entries.foldl extractToFile fs) ∧
    (∀ n : Str, (lookupD fs n).isSome →
      lookupD (entries.foldl extractToFile fs) n = lookupD fs n) ∧
    (∀ e ∈ entries, (lookupD (entries.foldl extractToFile fs) e.1).isSome) := by
  refine ⟨?_, fun n hn => lookupD_extractFold_of_isSome entries fs n hn,
    extractFold_present entries fs⟩
  unfold extractZipArchive
  rw [if_pos h]

/-- C8 witness: an entry whose destination exists is skipped, the old
content survives, and the call still succeeds. -/
theorem extractZipArchive_skip_spec_witness :
    extractZipArchive ⟨true⟩ [(strL "a", strL "new")] [(strL "a", strL "old")] =
      .ok ([(strL "a", strL "new")].foldl extractToFile [(strL "a", strL "old")]) ∧
    lookupD ([(strL "a", strL "new")].foldl extractToFile [(strL "a", strL "old")])
        (strL "a") =
      lookupD [(strL "a", strL "old")] (strL "a") :=
  ⟨(extractZipArchive_skip_spec ⟨true⟩ _ _ rfl).1,
    (extractZipArchive_skip_spec ⟨true⟩ _ _ rfl).2.1 (strL "a") (by decide)⟩

theorem entryName_append (dir r : Str) (h : r.head? ≠ some '/') :
    entryName dir (dir ++ '/' :: r) = r := by
  unfold entryName trimPrefixGo
  have hp : dir.isPrefixOf (dir ++ '/' :: r) = true :=
    (isPrefixOfEq _ _).mpr ⟨'/' :: r, rfl⟩
  rw [if_pos hp, List.drop_left]
  unfold trimLeftSepGo
  rw [List.dropWhile_cons, if_pos (by decide)]
  cases r with
  | nil => rfl
  | cons c rs =>
    have hc : ¬c = '/' := by
      intro he
      exact h (by rw [he]; rfl)
    rw [List.dropWhile_cons, if_neg (by simpa using hc)]

theorem lookupD_single_of_ne (n c m : Str) (h : m ≠ n) :
    lookupD [(n, c)] m = none := by
  have hf : List.find? (fun q => q.1 == m) [(n, c)] =
      List.find? (fun q => q.1 == m) [] :=
    List.find?_cons_of_neg _ (by simpa using fun he : n = m => h he.symm)
  unfold lookupD
  rw [hf]
  rfl

theorem extractFold_fresh (entries : List (Str × Str)) (fs : Dir)
    (hnodup : (entries.map fun e => e.1).Nodup)
    (hfresh : ∀ e ∈ entries, lookupD fs e.1 = none) :
    entries.foldl extractToFile fs = fs ++ entries := by
  induction entries generalizing fs with
  | nil => simp
  | cons e rest ih =>
    rw [List.foldl_cons]
    have hfe : lookupD fs e.1 = none := hfresh e (List.mem_cons_self e rest)
    have hstep : extractToFile fs e = fs ++ [(e.1, e.2)] :=
      handleCopyFile_of_none fs e.1 e.2 hfe
    rw [hstep]
    have hn' : (rest.map fun e => e.1).Nodup := by
      rw [List.map_cons, List.nodup_cons] at hnodup
      exact hnodup.2
    have hhead : e.1 ∉ rest.map fun e => e.1 := by
      rw [List.map_cons, List.nodup_cons] at hnodup
      exact hnodup.1
    have hfresh' : ∀ e' ∈ rest, lookupD (fs ++ [(e.1, e.2)]) e'.1 = none := by
      intro e' he'
      have hne : e'.1 ≠ e.1 := by
        intro hcontra
        exact hhead (hcontra ▸ List.mem_map_of_mem (fun e => e.1) he')
      rw [lookupD_append, hfresh e' (List.mem_cons_of_mem e he'),
        lookupD_single_of_ne e.1 e.2 e'.1 hne]
      rfl
    rw [ih (fs ++ [(e.1, e.2)]) hn' hfresh', List.append_assoc]
    rfl

/-- C6: packing a directory tree (each file at `dir ++ "/" ++ rel`, the
relative paths distinct and not beginning with the separator) and unpacking
the resulting archive into an empty destination reproduces exactly the
original relative paths with byte-identical contents. -/
theorem archive_roundtrip (penv : PackEnv) (eenv : ExtractEnv) (dir : Str)
    (tree : List (Str × Str))
    (hdst : penv.dstExists = false)
    (hzip : eenv.zipOk = true)
    (haddOk : ∀ f ∈ tree.map fun p => ((dir ++ '/' :: p.1 : Str), p.2),
      penv.addOk f.1 = true)
    (hheads : ∀ p ∈ tree, (p.1 : Str).head? ≠ some '/')
    (hnodup : (tree.map fun p => p.1).Nodup) :
    createZipArchive penv dir (tree.map fun p => ((dir ++ '/' :: p.1 : Str), p.2)) =
      .ok tree ∧
    extractZipArchive eenv tree [] = .ok tree := by
  constructor
  · rw [createZipArchive_ok_eq _ _ _ hdst, List.filter_eq_self.mpr haddOk,
      List.map_map]
    have hmap : (tree.map
        ((fun f => (entryName dir f.1, f.2)) ∘ fun p => ((dir ++ '/' :: p.1 : Str), p.2))) =
        tree.map id := by
      apply List.map_congr_left
      intro p hp
      show (entryName dir (dir ++ '/' :: p.1), p.2) = p
      rw [entryName_append dir p.1 (hheads p hp)]
    rw [hmap, List.map_id]
  · unfold extractZipArchive
    rw [if_pos hzip, extractFold_fresh tree [] hnodup (fun e _ => rfl)]
    rfl

/-- C6 witness: the round trip at a concrete two-file tree. -/
theorem archive_roundtrip_witness :
    createZipArchive ⟨false, fun _ => true⟩ (strL "/work/cache")
        ([(strL "a.mod", strL "x"), (strL "b/c.zip", strL "y")].map
          fun p => ((strL "/work/cache" ++ '/' :: p.1 : Str), p.2)) =
      .ok [(strL "a.mod", strL "x"), (strL "b/c.zip", strL "y")] ∧
    extractZipArchive ⟨true⟩ [(strL "a.mod", strL "x"), (strL "b/c.zip", strL "y")] [] =
      .ok [(strL "a.mod", strL "x"), (strL "b/c.zip", strL "y")] :=
  archive_roundtrip ⟨false, fun _ => true⟩ ⟨true⟩ (strL "/work/cache")
    [(strL "a.mod", strL "x"), (strL "b/c.zip", strL "y")] rfl rfl
    (fun f _ => rfl) (by decide) (by decide)

/-! ## JFrog publisher module-directory parsing (publish.go
`JFrogPublishCmd.Execute`, lines 70-100) -/

/-- publish.go lines 72-76: `strings.Split(filepath.Base(mod), "@")` must
give exactly two parts, otherwise the directory is logged as invalid and
skipped; on success the pair is (module path part, version part). -/
def parseModuleDir (base : Str) : Option (Str × Str) :=
  match splitGo '@' base with
  | [a, b] => some (a, b)
  | _ => none

/-- Modelled from the spec: derive the pair by splitting the base name on
the last '@' (everything before the last '@', everything after it). -/
def lastAtSplit (base : Str) : Option (Str × Str) :=
  if '@' ∈ base then
    some ((((base.reverse.dropWhile fun c => c ≠ '@').drop 1).reverse : Str),
      ((base.reverse.takeWhile fun c => c ≠ '@').reverse : Str))
  else none

theorem splitGo_ne_nil (c : Char) : ∀ l : Str, splitGo c l ≠ []
  | [] => by simp [splitGo]
  | x :: xs => by
    unfold splitGo
    cases hs : splitGo c xs with
    | nil => simp
    | cons f fs => by_cases hx : x = c <;> simp [hx]

theorem splitGo_eq_single (c : Char) : ∀ l a : Str,
    splitGo c l = [a] ↔ (l = a ∧ c ∉ a)
  | [], a => by
    constructor
    · intro h
      have h1 : ([] : Str) = a := by
        injection h with h' _
      refine ⟨h1, ?_⟩
      rw [← h1]
      exact List.not_mem_nil c
    · rintro ⟨h1, _⟩
      rw [show splitGo c [] = [[]] from rfl, ← h1]
  | x :: xs, a => by
    unfold splitGo
    cases hs : splitGo c xs with
    | nil => exact absurd hs (splitGo_ne_nil c xs)
    | cons f fs =>
      show (if x = c then [] :: f :: fs else (x :: f) :: fs) = [a] ↔ x :: xs = a ∧ c ∉ a
      by_cases hx : x = c
      · rw [if_pos hx]
        constructor
        · intro h
          exact absurd h (by simp)
        · rintro ⟨h1, h2⟩
          exfalso
          apply h2
          rw [← h1, hx]
          exact List.mem_cons_self c xs
      · rw [if_neg hx]
        constructor
        · intro h
          have ha : x :: f = a := by injection h with h' _
          have hfs : fs = [] := by injection h with _ h'
          have hxs : splitGo c xs = [f] := by rw [hs, hfs]
          have hsingle := (splitGo_eq_single c xs f).mp hxs
          constructor
          · rw [← ha, hsingle.1]
          · rw [← ha]
            intro hmem
            rcases List.mem_cons.mp hmem with he | hm
            · exact hx he.symm
            · exact hsingle.2 hm
        · rintro ⟨h1, h2⟩
          have hx2 : c ∉ xs := by
            intro hm
            apply h2
            rw [← h1]
            exact List.mem_cons_of_mem x hm
          have hsx : splitGo c xs = [xs] := (splitGo_eq_single c xs xs).mpr ⟨rfl, hx2⟩
          rw [hs] at hsx
          have hf : f = xs := by injection hsx with h' _
          have hfs : fs = [] := by injection hsx with _ h'
          rw [hf, hfs, ← h1]

theorem splitGo_eq_pair (c : Char) : ∀ l a b : Str,
    splitGo c l = [a, b] ↔ (l = a ++ c :: b ∧ c ∉ a ∧ c ∉ b)
  | [], a, b => by
    constructor
    · intro h
      exact absurd h (by simp [splitGo])
    · rintro ⟨h1, _, _⟩
      exact absurd h1 (by simp)
  | x :: xs, a, b => by
    unfold splitGo
    cases hs : splitGo c xs with
    | nil => exact absurd hs (splitGo_ne_nil c xs)
    | cons f fs =>
      show (if x = c then [] :: f :: fs else (x :: f) :: fs) = [a, b] ↔
        x :: xs = a ++ c :: b ∧ c ∉ a ∧ c ∉ b
      by_cases hx : x = c
      · rw [if_pos hx]
        constructor
        · intro h
          have ha : ([] : Str) = a := by injection h with h' _
          have h2 : f :: fs = [b] := by injection h with _ h'
          have hf : f = b := by injection h2 with h' _
          have hfs : fs = [] := by injection h2 with _ h'
          have hxs : splitGo c xs = [b] := by rw [hs, hf, hfs]
          have hsingle := (splitGo_eq_single c xs b).mp hxs
          refine ⟨?_, ?_, hsingle.2⟩
          · rw [← ha, hx, hsingle.1]
            rfl
          · rw [← ha]
            exact List.not_mem_nil c
        · rintro ⟨h1, h2, h3⟩
          cases a with
          | cons a0 as =>
            exfalso
            have hxa : x = a0 := by injection h1 with h' _
            apply h2
            have hac : a0 = c := by rw [← hxa, hx]
            rw [hac]
            exact List.mem_cons_self c as
          | nil =>
            have hxb : xs = b := by injection h1 with _ h'
            have hxs : splitGo c xs = [b] := (splitGo_eq_single c xs b).mpr ⟨hxb, h3⟩
            rw [hs] at hxs
            have hf : f = b := by injection hxs with h' _
            have hfs : fs = [] := by injection hxs with _ h'
            rw [hf, hfs]
      · rw [if_neg hx]
        constructor
        · intro h
          have ha : x :: f = a := by injection h with h' _
          have hfs : fs = [b] := by injection h with _ h'
          have hxs : splitGo c xs = [f, b] := by rw [hs, hfs]
          have hp := (splitGo_eq_pair c xs f b).mp hxs
          refine ⟨?_, ?_, hp.2.2⟩
          · rw [← ha, hp.1]
            rfl
          · rw [← ha]
            intro hmem
            rcases List.mem_cons.mp hmem with he | hm
            · exact hx he.symm
            · exact hp.2.1 hm
        · rintro ⟨h1, h2, h3⟩
          cases a with
          | nil =>
            exfalso
            apply hx
            injection h1 with h' _
          | cons a0 as =>
            have hxa : x = a0 := by injection h1 with h' _
            have hxs0 : xs = as ++ c :: b := by injection h1 with _ h'
            have hca : c ∉ as := fun hm => h2 (List.mem_cons_of_mem a0 hm)
            have hxs : splitGo c xs = [as, b] :=
              (splitGo_eq_pair c xs as b).mpr ⟨hxs0, hca, h3⟩
            rw [hs] at hxs
            have hf : f = as := by injection hxs with h' _
            have hfs : fs = [b] := by injection hxs with _ h'
            rw [hf, hfs, hxa]

/-- C9 counterexample: the base name "a@b@c" contains an '@', so the claim
says it is processed with the last-'@' split ("a@b", "c"); the code splits
into three parts and skips the directory as invalid. -/
theorem parseModuleDir_cex :
    parseModuleDir (strL "a@b@c") = none ∧
    lastAtSplit (strL "a@b@c") = some (strL "a@b", strL "c") := by
  decide

/-- C9 (amended): a module-version directory is processed exactly when its
base name contains a single '@'; the split is at that unique occurrence
(module part before it, version after it), and base names with zero or
several '@' runes are skipped as invalid. -/
theorem parseModuleDir_spec (base a b : Str) :
    parseModuleDir base = some (a, b) ↔
      (base = a ++ '@' :: b ∧ '@' ∉ a ∧ '@' ∉ b) := by
  unfold parseModuleDir
  constructor
  · intro h
    rcases hs : splitGo '@' base with _ | ⟨x, _ | ⟨y, _ | ⟨z, l⟩⟩⟩ <;> rw [hs] at h
    · exact absurd h (by simp)
    · exact absurd h (by simp)
    · simp only [Option.some.injEq, Prod.mk.injEq] at h
      rw [← h.1, ← h.2]
      exact (splitGo_eq_pair '@' base x y).mp hs
    · exact absurd h (by simp)
  · rintro ⟨h1, h2, h3⟩
    rw [(splitGo_eq_pair '@' base a b).mpr ⟨h1, h2, h3⟩]

/-- C9 witness: a concrete well-formed module-version directory name is
parsed into its path and version parts. -/
theorem parseModuleDir_spec_witness :
    parseModuleDir (strL "go-flags@v1.4.0") = some (strL "go-flags", strL "v1.4.0") :=
  (parseModuleDir_spec (strL "go-flags@v1.4.0") (strL "go-flags") (strL "v1.4.0")).mpr
    (by decide)

end Gop
